import Mathlib

/-!
Verification of the command-tree reconstruction core of the `voc` repository
(`src/voc/python/utils.py`): the `Command` data model and the backward,
stack-balance-driven `extract_command` algorithm.

The instruction sequence is embedded as a `List Instruction`; the cursor is an
`Int` because the Python code decrements an index without a lower bound, and
Python list indexing wraps one length for negative indices (`pyGet`).  The
opcode registry (the `opcodes` module, an external collaborator of this core)
is a parameter mapping an opcode name to its stack-effect descriptor.  The
recursion of `extract_command` is driven by an explicit fuel parameter; all
theorems about successful results quantify over the fuel.
-/

namespace Voc

/-- One decoded instruction, as supplied to `extract_command`
(fields mirror the attributes read by `utils.py`). -/
structure Instruction where
  opname : String
  arg : Option Nat
  argval : Nat
  offset : Nat
  starts_line : Option Nat
  is_jump_target : Bool
  deriving DecidableEq, Repr

/-- The resolved operation attached to one instruction: the opcode object that
`OpType()` / `OpType(argval)` constructs, carrying the registry's stack-effect
numbers and block flags. -/
structure Opcode where
  opname : String
  argument : Option Nat
  consume_count : Nat
  product_count : Nat
  start_block : Bool
  end_block : Bool
  deriving DecidableEq, Repr

/-- Modelled from the spec: the opcode descriptor registry entry (the
`opcodes` module is not under `src/`; §4.1 of the spec gives its contract).
`consume`/`produce` may depend on the resolved argument; the block flags are
fixed per opcode name. -/
structure OpSpec where
  consume : Option Nat → Nat
  produce : Option Nat → Nat
  start_block : Bool
  end_block : Bool

/-- Modelled from the spec: the registry lookup `descriptorOf`; `none` models
the `getattr` failure for an unknown opcode name. -/
abbrev Registry : Type := String → Option OpSpec

/-- Construction of the opcode object from a registry entry and the (possibly
merged) argument, mirroring `OpType()` / `OpType(argval)`. -/
def mkOpcode (name : String) (s : OpSpec) (argument : Option Nat) : Opcode :=
  { opname := name
    argument := argument
    consume_count := s.consume argument
    product_count := s.produce argument
    start_block := s.start_block
    end_block := s.end_block }

/-- The reconstructed tree node (`class Command` in `utils.py`). -/
inductive Command where
  | mk (operation : Opcode) (offset : Nat) (starts_line : Option Nat)
      (is_jump_target : Bool) (arguments : List Command)
  deriving Repr

def Command.operation : Command → Opcode
  | .mk op _ _ _ _ => op

def Command.offset : Command → Nat
  | .mk _ o _ _ _ => o

def Command.starts_line : Command → Option Nat
  | .mk _ _ s _ _ => s

def Command.is_jump_target : Command → Bool
  | .mk _ _ _ j _ => j

def Command.arguments : Command → List Command
  | .mk _ _ _ _ a => a

mutual

/-- `Command.consume_count`: the operation's consumption plus that of all
arguments, recursively. -/
def Command.consume_count : Command → Nat
  | .mk op _ _ _ args => Command.consume_count_list args + op.consume_count

def Command.consume_count_list : List Command → Nat
  | [] => 0
  | c :: cs => Command.consume_count c + Command.consume_count_list cs

end

mutual

/-- `Command.product_count`: the operation's production plus that of all
arguments, recursively. -/
def Command.product_count : Command → Nat
  | .mk op _ _ _ args => Command.product_count_list args + op.product_count

def Command.product_count_list : List Command → Nat
  | [] => 0
  | c :: cs => Command.product_count c + Command.product_count_list cs

end

/-- Python list indexing semantics for `instructions[i]`: nonnegative indices
read directly, negative indices wrap once by the list length, and anything
further out of range is an `IndexError` (`none`). -/
def pyGet (instrs : List Instruction) (i : Int) : Option Instruction :=
  if 0 ≤ i then instrs.get? i.toNat
  else if 0 ≤ i + instrs.length then instrs.get? (i + instrs.length).toNat
  else none

/-- Failure modes of the embedded algorithm: an unknown opcode name (the
`getattr` failure), a Python `IndexError`, and exhaustion of the recursion
fuel (never the result of a real run given enough fuel). -/
inductive ExtractErr where
  | unsupportedOperation (opname : String)
  | indexError
  | fuelExhausted
  deriving DecidableEq, Repr

/-- The extended-argument merge of `utils.py` lines 71–75: when the index `i`
has a predecessor and that predecessor's opcode name is `EXTENDED_ARG`, the
working index moves one position back and the argument value is combined with
the predecessor's value by bitwise OR; otherwise both are unchanged. -/
def mergeExt (instrs : List Instruction) (i : Int) (argval : Nat) : Int × Nat :=
  if 0 < i then
    match pyGet instrs (i - 1) with
    | some prev =>
      if prev.opname = "EXTENDED_ARG" then (i - 1, argval ||| prev.argval)
      else (i, argval)
    | none => (i, argval)
  else (i, argval)

mutual

/-- Embedding of `extract_command(instructions, i)` from `utils.py`.  The
cursor is one past the instruction of interest; the instruction is looked up
with Python indexing, its opcode resolved from the registry, an immediately
preceding `EXTENDED_ARG` instruction merged by bitwise OR, and then one of
the three structural branches runs. -/
def extract_command (fuel : Nat) (reg : Registry) (instrs : List Instruction)
    (i : Int) : Except ExtractErr (Int × Command) :=
  match fuel with
  | 0 => .error .fuelExhausted
  | fuel + 1 =>
    let i := i - 1
    match pyGet instrs i with
    | none => .error .indexError
    | some instruction =>
      match reg instruction.opname with
      | none => .error (.unsupportedOperation instruction.opname)
      | some s =>
        let m := mergeExt instrs i instruction.argval
        let i := m.1
        let argval := m.2
        let opcode :=
          if instruction.arg = none then mkOpcode instruction.opname s none
          else mkOpcode instruction.opname s (some argval)
        if opcode.end_block then
          match gatherBlock fuel reg instrs i [] with
          | .error e => .error e
          | .ok (i, args) =>
            .ok (i, Command.mk opcode instruction.offset instruction.starts_line
              instruction.is_jump_target args.reverse)
        else if opcode.start_block then
          .ok (i, Command.mk opcode instruction.offset instruction.starts_line
            instruction.is_jump_target [])
        else
          match gatherStack fuel reg instrs i (opcode.consume_count : Int) [] with
          | .error e => .error e
          | .ok (i, args) =>
            .ok (i, Command.mk opcode instruction.offset instruction.starts_line
              instruction.is_jump_target args.reverse)

/-- The `while not found_start` loop of the block-closing branch: keep pulling
preceding commands, appending each, until one whose operation opens a block
appears; that opener is discarded from the argument list. -/
def gatherBlock (fuel : Nat) (reg : Registry) (instrs : List Instruction)
    (i : Int) (acc : List Command) : Except ExtractErr (Int × List Command) :=
  match fuel with
  | 0 => .error .fuelExhausted
  | fuel + 1 =>
    match extract_command fuel reg instrs i with
    | .error e => .error e
    | .ok (i, arg) =>
      if arg.operation.start_block then .ok (i, acc)
      else gatherBlock fuel reg instrs i (acc ++ [arg])

/-- The `while stack > 0` loop of the ordinary branch: keep pulling preceding
commands while the running balance is positive, updating the balance by each
child's net consumption. -/
def gatherStack (fuel : Nat) (reg : Registry) (instrs : List Instruction)
    (i : Int) (stack : Int) (acc : List Command) :
    Except ExtractErr (Int × List Command) :=
  match fuel with
  | 0 => .error .fuelExhausted
  | fuel + 1 =>
    if 0 < stack then
      match extract_command fuel reg instrs i with
      | .error e => .error e
      | .ok (i, arg) =>
        gatherStack fuel reg instrs i
          (stack + (arg.consume_count : Int) - (arg.product_count : Int))
          (acc ++ [arg])
    else .ok (i, acc)

end

/-- Modelled from the spec: the top-level driver (§4.4), which is outside the
core in `src/`.  Repeatedly invokes `extract_command` until the cursor is
exactly `0`, collecting the commands and reversing them into forward order. -/
def extract_commands (fuel : Nat) (reg : Registry) (instrs : List Instruction)
    (i : Int) (acc : List Command) : Except ExtractErr (List Command) :=
  match fuel with
  | 0 => .error .fuelExhausted
  | fuel + 1 =>
    if i = 0 then .ok acc.reverse
    else
      match extract_command fuel reg instrs i with
      | .error e => .error e
      | .ok (i, cmd) => extract_commands fuel reg instrs i (acc ++ [cmd])

/-- The effective argument an instruction contributes when no extended-argument
merge applies: absent when the raw `arg` is absent, else the resolved value. -/
def effArg (ins : Instruction) : Option Nat :=
  if ins.arg = none then none else some ins.argval

/-- A child's net stack consumption, as used by the gathering loop. -/
def netConsume (c : Command) : Int :=
  (c.consume_count : Int) - (c.product_count : Int)

/-- The running balance after gathering a list of children, starting from a
given initial requirement. -/
def balAfter (start : Int) (l : List Command) : Int :=
  start + (l.map netConsume).sum

/-! ## Basic facts about the helpers -/

theorem mergeExt_fst_le (instrs : List Instruction) (i : Int) (v : Nat) :
    i - 1 ≤ (mergeExt instrs i v).1 ∧ (mergeExt instrs i v).1 ≤ i := by
  unfold mergeExt
  split
  · split
    · split
      · exact ⟨le_refl _, sub_le_self i (by norm_num)⟩
      · exact ⟨sub_le_self i (by norm_num), le_refl _⟩
    · exact ⟨sub_le_self i (by norm_num), le_refl _⟩
  · exact ⟨sub_le_self i (by norm_num), le_refl _⟩

theorem balAfter_nil (start : Int) : balAfter start [] = start := by
  simp [balAfter]

theorem balAfter_cons (start : Int) (c : Command) (l : List Command) :
    balAfter start (c :: l) = balAfter (start + netConsume c) l := by
  simp only [balAfter, List.map_cons, List.sum_cons]
  ring

/-! ## Cursor decrease

Every successful call of `extract_command` returns a cursor at least one
below its input cursor; the gathering loops never increase it. -/

theorem decrease_all (fuel : Nat) :
    (∀ reg instrs i i' cmd,
      extract_command fuel reg instrs i = .ok (i', cmd) → i' ≤ i - 1) ∧
    (∀ reg instrs i acc i' out,
      gatherBlock fuel reg instrs i acc = .ok (i', out) → i' ≤ i - 1) ∧
    (∀ reg instrs i st acc i' out,
      gatherStack fuel reg instrs i st acc = .ok (i', out) → i' ≤ i) := by
  induction fuel with
  | zero =>
    refine ⟨?_, ?_, ?_⟩
    · intro reg instrs i i' cmd h
      simp [extract_command] at h
    · intro reg instrs i acc i' out h
      simp [gatherBlock] at h
    · intro reg instrs i st acc i' out h
      simp [gatherStack] at h
  | succ f ih =>
    obtain ⟨ihE, ihB, ihS⟩ := ih
    refine ⟨?_, ?_, ?_⟩
    · intro reg instrs i i' cmd h
      simp only [extract_command] at h
      rcases hg : pyGet instrs (i - 1) with _ | instruction
      · simp [hg] at h
      simp only [hg] at h
      rcases hr : reg instruction.opname with _ | s
      · simp [hr] at h
      simp only [hr] at h
      have hm := mergeExt_fst_le instrs (i - 1) instruction.argval
      revert h hm
      generalize (if instruction.arg = none then mkOpcode instruction.opname s none
        else mkOpcode instruction.opname s
          (some (mergeExt instrs (i - 1) instruction.argval).2)) = o
      generalize (mergeExt instrs (i - 1) instruction.argval).1 = w
      intro h hm
      split at h
      · rcases hb : gatherBlock f reg instrs w [] with e | ⟨j, args⟩
        · simp [hb] at h
        · simp only [hb, Except.ok.injEq, Prod.mk.injEq] at h
          have := ihB reg instrs _ _ _ _ hb
          omega
      split at h
      · simp only [Except.ok.injEq, Prod.mk.injEq] at h
        omega
      · rcases hs : gatherStack f reg instrs w (o.consume_count : Int) [] with e | ⟨j, args⟩
        · simp [hs] at h
        · simp only [hs, Except.ok.injEq, Prod.mk.injEq] at h
          have := ihS reg instrs _ _ _ _ _ hs
          omega
    · intro reg instrs i acc i' out h
      simp only [gatherBlock] at h
      rcases he : extract_command f reg instrs i with e | ⟨j, arg⟩
      · simp [he] at h
      simp only [he] at h
      have hj := ihE reg instrs _ _ _ he
      split at h
      · simp only [Except.ok.injEq, Prod.mk.injEq] at h
        omega
      · have := ihB reg instrs _ _ _ _ h
        omega
    · intro reg instrs i st acc i' out h
      simp only [gatherStack] at h
      split at h
      · rcases he : extract_command f reg instrs i with e | ⟨j, arg⟩
        · simp [he] at h
        simp only [he] at h
        have hj := ihE reg instrs _ _ _ he
        have := ihS reg instrs _ _ _ _ _ h
        omega
      · simp only [Except.ok.injEq, Prod.mk.injEq] at h
        omega

theorem extract_command_le (fuel : Nat) (reg : Registry) (instrs : List Instruction)
    {i i' : Int} {cmd : Command} (h : extract_command fuel reg instrs i = .ok (i', cmd)) :
    i' ≤ i - 1 :=
  (decrease_all fuel).1 reg instrs i i' cmd h

theorem gatherBlock_le (fuel : Nat) (reg : Registry) (instrs : List Instruction)
    {i i' : Int} {acc out : List Command}
    (h : gatherBlock fuel reg instrs i acc = .ok (i', out)) : i' ≤ i - 1 :=
  (decrease_all fuel).2.1 reg instrs i acc i' out h

theorem gatherStack_le (fuel : Nat) (reg : Registry) (instrs : List Instruction)
    {i st i' : Int} {acc out : List Command}
    (h : gatherStack fuel reg instrs i st acc = .ok (i', out)) : i' ≤ i :=
  (decrease_all fuel).2.2 reg instrs i st acc i' out h

/-! ## The running balance of the argument-gathering loop

`gatherStack` appends children exactly while the running balance is strictly
positive; at exit the balance is zero or below (it may overshoot into a
negative value when a child produces more than one surplus stack slot). -/

theorem gatherStack_balance (fuel : Nat) :
    ∀ reg instrs i st acc i' out,
      gatherStack fuel reg instrs i st acc = .ok (i', out) →
      ∃ new, out = acc ++ new ∧ balAfter st new ≤ 0 ∧
        ∀ k, k < new.length → 0 < balAfter st (new.take k) := by
  induction fuel with
  | zero =>
    intro reg instrs i st acc i' out h
    simp [gatherStack] at h
  | succ f ih =>
    intro reg instrs i st acc i' out h
    simp only [gatherStack] at h
    by_cases hst : 0 < st
    · rw [if_pos hst] at h
      rcases he : extract_command f reg instrs i with e | ⟨j, arg⟩
      · simp [he] at h
      simp only [he] at h
      obtain ⟨new, hout, hbal, hpre⟩ := ih reg instrs j
        (st + (arg.consume_count : Int) - (arg.product_count : Int)) (acc ++ [arg]) i' out h
      have hnc : st + netConsume arg
          = st + (arg.consume_count : Int) - (arg.product_count : Int) := by
        unfold netConsume; ring
      refine ⟨arg :: new, by simp [hout], ?_, ?_⟩
      · rw [balAfter_cons, hnc]
        exact hbal
      · intro k hk
        match k with
        | 0 => simpa [balAfter_nil] using hst
        | k + 1 =>
          have hk' : k < new.length := by simpa using hk
          have := hpre k hk'
          simpa [balAfter_cons, hnc] using this
    · rw [if_neg hst] at h
      simp only [Except.ok.injEq, Prod.mk.injEq] at h
      refine ⟨[], by simp [h.2.symm], ?_, ?_⟩
      · rw [balAfter_nil]; omega
      · intro k hk
        simp at hk

/-! ## Offset ordering

When the instruction offsets are strictly increasing along the sequence and a
run never wraps around below index `0` (witnessed by a nonnegative returned
cursor), the children of every returned command carry strictly increasing
offsets, all below the command's own offset. -/

theorem pyGet_nonneg {instrs : List Instruction} {i : Int} (h : 0 ≤ i) :
    pyGet instrs i = instrs.get? i.toNat := by
  simp [pyGet, h]

/-- The input invariant of §3 of the spec: instruction offsets are strictly
increasing along the sequence. -/
def OffsetMono (instrs : List Instruction) : Prop :=
  List.Pairwise (fun x y => x < y) (instrs.map fun ins => ins.offset)

theorem offsetMono_get {instrs : List Instruction} (h : OffsetMono instrs)
    {a b : Nat} {ia ib : Instruction} (hab : a < b)
    (ha : instrs.get? a = some ia) (hb : instrs.get? b = some ib) :
    ia.offset < ib.offset := by
  rw [List.get?_eq_getElem?] at ha hb
  obtain ⟨hal, hae⟩ := List.getElem?_eq_some.mp ha
  obtain ⟨hbl, hbe⟩ := List.getElem?_eq_some.mp hb
  have hp := List.pairwise_iff_getElem.mp h a b (by simpa using hal) (by simpa using hbl) hab
  simpa [List.getElem_map, hae, hbe] using hp

/-- The gathering loops produce children whose offsets strictly decrease (in
gathering order) and whose root instructions all sit strictly before the
position the loop started at. -/
def DescBelow (instrs : List Instruction) (j : Int) (l : List Command) : Prop :=
  List.Chain' (fun a b : Command => b.offset < a.offset) l ∧
    ∀ c ∈ l, ∃ r : Nat, ∃ ri : Instruction,
      instrs.get? r = some ri ∧ c.offset = ri.offset ∧ (r : Int) ≤ j - 1

theorem descBelow_nil (instrs : List Instruction) (j : Int) :
    DescBelow instrs j [] := by
  constructor
  · simp
  · intro c hc
    simp at hc

theorem offsets_all (reg : Registry) (instrs : List Instruction)
    (hmono : OffsetMono instrs) (fuel : Nat) :
    (∀ i i' cmd, extract_command fuel reg instrs i = .ok (i', cmd) → 0 ≤ i' →
      (∃ r : Nat, ∃ ri : Instruction, (r : Int) = i - 1 ∧ instrs.get? r = some ri ∧
        cmd.offset = ri.offset) ∧
      List.Chain' (fun a b : Command => a.offset < b.offset) cmd.arguments ∧
      ∀ a ∈ cmd.arguments, a.offset < cmd.offset) ∧
    (∀ i acc i' out, gatherBlock fuel reg instrs i acc = .ok (i', out) → 0 ≤ i' →
      ∃ new, out = acc ++ new ∧ DescBelow instrs i new) ∧
    (∀ i st acc i' out, gatherStack fuel reg instrs i st acc = .ok (i', out) → 0 ≤ i' →
      ∃ new, out = acc ++ new ∧ DescBelow instrs i new) := by
  induction fuel with
  | zero =>
    refine ⟨?_, ?_, ?_⟩
    · intro i i' cmd h
      simp [extract_command] at h
    · intro i acc i' out h
      simp [gatherBlock] at h
    · intro i st acc i' out h
      simp [gatherStack] at h
  | succ f ih =>
    obtain ⟨ihE, ihB, ihS⟩ := ih
    refine ⟨?_, ?_, ?_⟩
    · intro i i' cmd h hnn
      have hle := extract_command_le (f + 1) reg instrs h
      have hi1 : (0 : Int) ≤ i - 1 := le_trans hnn hle
      have htn : ((i - 1).toNat : Int) = i - 1 := Int.toNat_of_nonneg hi1
      simp only [extract_command] at h
      rcases hg : pyGet instrs (i - 1) with _ | instruction
      · simp [hg] at h
      simp only [hg] at h
      rcases hr : reg instruction.opname with _ | s
      · simp [hr] at h
      simp only [hr] at h
      have hget : instrs.get? (i - 1).toNat = some instruction := by
        rw [← pyGet_nonneg hi1]; exact hg
      have hm := mergeExt_fst_le instrs (i - 1) instruction.argval
      revert h hm
      generalize (if instruction.arg = none then mkOpcode instruction.opname s none
        else mkOpcode instruction.opname s
          (some (mergeExt instrs (i - 1) instruction.argval).2)) = o
      generalize (mergeExt instrs (i - 1) instruction.argval).1 = w
      intro h hm
      split at h
      · rcases hb : gatherBlock f reg instrs w [] with e | ⟨j, args⟩
        · simp [hb] at h
        simp only [hb, Except.ok.injEq, Prod.mk.injEq] at h
        obtain ⟨h1, h2⟩ := h
        subst h1
        subst h2
        obtain ⟨new, hargs, hdesc⟩ := ihB w [] _ args hb hnn
        simp only [List.nil_append] at hargs
        subst hargs
        refine ⟨⟨(i - 1).toNat, instruction, htn, hget, by simp [Command.offset]⟩, ?_, ?_⟩
        · simp only [Command.arguments]
          exact List.chain'_reverse.mpr hdesc.1
        · intro a ha
          simp only [Command.arguments, List.mem_reverse] at ha
          obtain ⟨r, ri, hrget, hroff, hrle⟩ := hdesc.2 a ha
          have hrlt : r < (i - 1).toNat := by omega
          have := offsetMono_get hmono hrlt hrget hget
          show a.offset < instruction.offset
          omega
      split at h
      · simp only [Except.ok.injEq, Prod.mk.injEq] at h
        obtain ⟨h1, h2⟩ := h
        subst h1
        subst h2
        refine ⟨⟨(i - 1).toNat, instruction, htn, hget, by simp [Command.offset]⟩, ?_, ?_⟩
        · simp [Command.arguments]
        · intro a ha
          simp [Command.arguments] at ha
      · rcases hs : gatherStack f reg instrs w (o.consume_count : Int) [] with e | ⟨j, args⟩
        · simp [hs] at h
        simp only [hs, Except.ok.injEq, Prod.mk.injEq] at h
        obtain ⟨h1, h2⟩ := h
        subst h1
        subst h2
        obtain ⟨new, hargs, hdesc⟩ := ihS w _ [] _ args hs hnn
        simp only [List.nil_append] at hargs
        subst hargs
        refine ⟨⟨(i - 1).toNat, instruction, htn, hget, by simp [Command.offset]⟩, ?_, ?_⟩
        · simp only [Command.arguments]
          exact List.chain'_reverse.mpr hdesc.1
        · intro a ha
          simp only [Command.arguments, List.mem_reverse] at ha
          obtain ⟨r, ri, hrget, hroff, hrle⟩ := hdesc.2 a ha
          have hrlt : r < (i - 1).toNat := by omega
          have := offsetMono_get hmono hrlt hrget hget
          show a.offset < instruction.offset
          omega
    · intro i acc i' out h hnn
      simp only [gatherBlock] at h
      rcases he : extract_command f reg instrs i with e | ⟨j, arg⟩
      · simp [he] at h
      simp only [he] at h
      have hji := extract_command_le f reg instrs he
      split at h
      · simp only [Except.ok.injEq, Prod.mk.injEq] at h
        obtain ⟨h1, h2⟩ := h
        exact ⟨[], by simp [h2.symm], descBelow_nil instrs i⟩
      · have hi' := gatherBlock_le f reg instrs h
        have hj0 : 0 ≤ j := by omega
        obtain ⟨new', hout, hdesc⟩ := ihB j (acc ++ [arg]) i' out h hnn
        obtain ⟨⟨r0, ri0, hr0eq, hr0get, hr0off⟩, _, _⟩ := ihE i j arg he hj0
        refine ⟨arg :: new', by simp [hout], ?_, ?_⟩
        · rw [List.chain'_cons']
          constructor
          · intro y hy
            have hymem : y ∈ new' := List.mem_of_mem_head? hy
            obtain ⟨r, ri, hrget, hroff, hrle⟩ := hdesc.2 y hymem
            have hrlt : r < r0 := by omega
            have := offsetMono_get hmono hrlt hrget hr0get
            omega
          · exact hdesc.1
        · intro c hc
          rw [List.mem_cons] at hc
          rcases hc with hc | hc
          · subst hc
            exact ⟨r0, ri0, hr0get, hr0off, by omega⟩
          · obtain ⟨r, ri, hrget, hroff, hrle⟩ := hdesc.2 c hc
            exact ⟨r, ri, hrget, hroff, by omega⟩
    · intro i st acc i' out h hnn
      simp only [gatherStack] at h
      by_cases hst : 0 < st
      · rw [if_pos hst] at h
        rcases he : extract_command f reg instrs i with e | ⟨j, arg⟩
        · simp [he] at h
        simp only [he] at h
        have hji := extract_command_le f reg instrs he
        have hi' := gatherStack_le f reg instrs h
        have hj0 : 0 ≤ j := by omega
        obtain ⟨new', hout, hdesc⟩ := ihS j _ (acc ++ [arg]) i' out h hnn
        obtain ⟨⟨r0, ri0, hr0eq, hr0get, hr0off⟩, _, _⟩ := ihE i j arg he hj0
        refine ⟨arg :: new', by simp [hout], ?_, ?_⟩
        · rw [List.chain'_cons']
          constructor
          · intro y hy
            have hymem : y ∈ new' := List.mem_of_mem_head? hy
            obtain ⟨r, ri, hrget, hroff, hrle⟩ := hdesc.2 y hymem
            have hrlt : r < r0 := by omega
            have := offsetMono_get hmono hrlt hrget hr0get
            omega
          · exact hdesc.1
        · intro c hc
          rw [List.mem_cons] at hc
          rcases hc with hc | hc
          · subst hc
            exact ⟨r0, ri0, hr0get, hr0off, by omega⟩
          · obtain ⟨r, ri, hrget, hroff, hrle⟩ := hdesc.2 c hc
            exact ⟨r, ri, hrget, hroff, by omega⟩
      · rw [if_neg hst] at h
        simp only [Except.ok.injEq, Prod.mk.injEq] at h
        exact ⟨[], by simp [h.2.symm], descBelow_nil instrs i⟩

/-! ## The top-level driver keeps the cursor nonnegative -/

theorem extract_commands_nonneg (fuel : Nat) :
    ∀ reg instrs i acc out,
      extract_commands fuel reg instrs i acc = .ok out → 0 ≤ i := by
  induction fuel with
  | zero =>
    intro reg instrs i acc out h
    simp [extract_commands] at h
  | succ f ih =>
    intro reg instrs i acc out h
    simp only [extract_commands] at h
    by_cases hi : i = 0
    · omega
    · rw [if_neg hi] at h
      rcases he : extract_command f reg instrs i with e | ⟨j, cmd⟩
      · simp [he] at h
      simp only [he] at h
      have h0 := ih reg instrs j (acc ++ [cmd]) out h
      have h1 := extract_command_le f reg instrs he
      omega

end Voc

namespace Voc

/-! ## Concrete fixtures for the worked examples

A small registry in the shape the spec's §4.1 contract describes, with leaf
producers, plain consumers, and one block-opening/closing pair. -/

def mkIns (name : String) (arg : Option Nat) (argval : Nat) (off : Nat) : Instruction :=
  { opname := name, arg := arg, argval := argval, offset := off,
    starts_line := none, is_jump_target := false }

def loadSpec : OpSpec :=
  { consume := fun _ => 0, produce := fun _ => 1, start_block := false, end_block := false }

def produceTwoSpec : OpSpec :=
  { consume := fun _ => 0, produce := fun _ => 2, start_block := false, end_block := false }

def consumeOneSpec : OpSpec :=
  { consume := fun _ => 1, produce := fun _ => 1, start_block := false, end_block := false }

def consumeTwoSpec : OpSpec :=
  { consume := fun _ => 2, produce := fun _ => 1, start_block := false, end_block := false }

def openSpec : OpSpec :=
  { consume := fun _ => 0, produce := fun _ => 0, start_block := true, end_block := false }

def closeSpec : OpSpec :=
  { consume := fun _ => 0, produce := fun _ => 0, start_block := false, end_block := true }

def regDemo : Registry := fun name =>
  if name = "LOAD" then some loadSpec
  else if name = "P2" then some produceTwoSpec
  else if name = "C1" then some consumeOneSpec
  else if name = "C2" then some consumeTwoSpec
  else if name = "ADD" then some consumeTwoSpec
  else if name = "OPEN" then some openSpec
  else if name = "CLOSE" then some closeSpec
  else none

/-! ## C5: unknown opcode names fail immediately -/

/-- C5: when the instruction under the cursor has an opcode name without a
registry entry, `extract_command` fails with `unsupportedOperation` the moment
that instruction is resolved, returning no command; the `Except` propagation
of the recursion aborts the whole reconstruction with that error. -/
theorem unknown_opcode_fails (fuel : Nat) (reg : Registry) (instrs : List Instruction)
    (i : Int) (instr : Instruction)
    (hins : pyGet instrs (i - 1) = some instr) (hreg : reg instr.opname = none) :
    extract_command (fuel + 1) reg instrs i = .error (.unsupportedOperation instr.opname) := by
  simp only [extract_command, hins, hreg]

/-- Witness for C5 at a concrete input: the opname `NOPE` has no entry in the
demo registry, and resolution fails. -/
theorem unknown_opcode_fails_witness :
    extract_command 10 regDemo [mkIns "NOPE" none 0 0] 1
      = .error (.unsupportedOperation "NOPE") :=
  unknown_opcode_fails 9 regDemo [mkIns "NOPE" none 0 0] 1 (mkIns "NOPE" none 0 0) rfl rfl

/-! ## C7: cursor coverage of the top-level driver -/

/-- C7: every successful `extract_command` call strictly decreases the cursor,
and a successful driver run never sees a negative cursor at a loop entry; so a
run started at `len(instructions)` walks a strictly decreasing chain of
nonnegative cursors that terminates exactly at `0`, consuming the interval of
instructions between consecutive cursors exactly once. -/
theorem full_coverage :
    (∀ (fuel : Nat) (reg : Registry) (instrs : List Instruction) (i i' : Int) (cmd : Command),
      extract_command fuel reg instrs i = .ok (i', cmd) → i' < i) ∧
    (∀ (fuel : Nat) (reg : Registry) (instrs : List Instruction) (i : Int)
      (acc out : List Command),
      extract_commands fuel reg instrs i acc = .ok out → 0 ≤ i) := by
  constructor
  · intro fuel reg instrs i i' cmd h
    have := extract_command_le fuel reg instrs h
    omega
  · intro fuel reg instrs i acc out h
    exact extract_commands_nonneg fuel reg instrs i acc out h

def insExpr : List Instruction :=
  [mkIns "LOAD" (some 0) 1 0, mkIns "LOAD" (some 1) 2 3, mkIns "ADD" none 0 6]

/-- Witness for C7 at a concrete input: a three-instruction expression,
extracted from cursor `3`, returns cursor `0 < 3`, and the driver run from
cursor `3` succeeds with a nonnegative start. -/
theorem full_coverage_witness :
    ((2 : Int) < 3 ∧ (0 : Int) ≤ 3) ∧ (0 : Int) < 3 := by
  refine ⟨⟨?_, ?_⟩, by norm_num⟩
  · exact full_coverage.1 10 (fun _ => some loadSpec) insExpr 3 2
      (Command.mk (mkOpcode "ADD" loadSpec none) 6 none false []) rfl
  · exact full_coverage.2 20 regDemo insExpr 3 []
      [Command.mk (mkOpcode "ADD" consumeTwoSpec none) 6 none false
        [Command.mk (mkOpcode "LOAD" loadSpec (some 1)) 0 none false [],
         Command.mk (mkOpcode "LOAD" loadSpec (some 2)) 3 none false []]] rfl

end Voc

namespace Voc

/-! ## C9: zero-consumption, non-block operations yield leaves -/

/-- C9: whenever `extract_command` succeeds and the returned command's
operation consumes zero stack slots and neither opens nor closes a block, the
argument-gathering loop never runs: the command is a leaf with an empty
arguments list. -/
theorem zero_consume_leaf (fuel : Nat) (reg : Registry) (instrs : List Instruction)
    (i i' : Int) (cmd : Command)
    (hok : extract_command fuel reg instrs i = .ok (i', cmd))
    (hc : cmd.operation.consume_count = 0)
    (hsb : cmd.operation.start_block = false)
    (heb : cmd.operation.end_block = false) :
    cmd.arguments = [] := by
  match fuel with
  | 0 => simp [extract_command] at hok
  | f + 1 =>
    simp only [extract_command] at hok
    rcases hg : pyGet instrs (i - 1) with _ | instruction
    · simp [hg] at hok
    simp only [hg] at hok
    rcases hr : reg instruction.opname with _ | s
    · simp [hr] at hok
    simp only [hr] at hok
    revert hok
    generalize (if instruction.arg = none then mkOpcode instruction.opname s none
      else mkOpcode instruction.opname s
        (some (mergeExt instrs (i - 1) instruction.argval).2)) = o
    generalize (mergeExt instrs (i - 1) instruction.argval).1 = w
    intro hok
    split at hok
    · rename_i hcond
      rcases hb : gatherBlock f reg instrs w [] with e | ⟨j, args⟩
      · simp [hb] at hok
      simp only [hb, Except.ok.injEq, Prod.mk.injEq] at hok
      obtain ⟨h1, h2⟩ := hok
      subst h2
      simp only [Command.operation] at heb
      rw [hcond] at heb
      simp at heb
    split at hok
    · simp only [Except.ok.injEq, Prod.mk.injEq] at hok
      obtain ⟨h1, h2⟩ := hok
      subst h2
      simp [Command.arguments]
    · rcases hs : gatherStack f reg instrs w (o.consume_count : Int) [] with e | ⟨j, args⟩
      · simp [hs] at hok
      simp only [hs, Except.ok.injEq, Prod.mk.injEq] at hok
      obtain ⟨h1, h2⟩ := hok
      subst h2
      simp only [Command.operation] at hc
      simp only [hc, Nat.cast_zero] at hs
      match f with
      | 0 => simp [gatherStack] at hs
      | f' + 1 =>
        simp only [gatherStack] at hs
        rw [if_neg (by omega : ¬ (0 : Int) < 0)] at hs
        simp only [Except.ok.injEq, Prod.mk.injEq] at hs
        simp [Command.arguments, ← hs.2]

def loadLeafCmd : Command := Command.mk (mkOpcode "LOAD" loadSpec (some 1)) 0 none false []

/-- Witness for C9 at a concrete input: a single constant load is extracted
as a leaf with no arguments. -/
theorem zero_consume_leaf_witness : loadLeafCmd.arguments = [] :=
  zero_consume_leaf 10 regDemo [mkIns "LOAD" (some 0) 1 0] 1 0 loadLeafCmd rfl rfl rfl rfl

/-! ## C4: underflow is not surfaced as an error -/

def insUnder : List Instruction :=
  [mkIns "C2" none 0 0, mkIns "LOAD" (some 0) 1 2, mkIns "LOAD" (some 1) 2 4]

/-- C4: evaluating the code at the failing input.  The sequence starts with a
consume-2 operation; extracting it (cursor 1) does NOT fail with a structural
underflow: the cursor goes negative, wraps around, and the call returns a
command for `C2` whose two "arguments" are the instructions at offsets 2 and
4 — the instructions that come AFTER it — with final cursor −2. -/
theorem underflow_returns_command :
    (extract_command 20 regDemo insUnder 1).map
        (fun r => (r.1, r.2.operation.opname, r.2.arguments.map fun a => a.offset))
      = .ok (-2, "C2", [2, 4]) := rfl

/-! ## C10: cursor 0 silently wraps to the last instruction -/

def insTwoLoads : List Instruction :=
  [mkIns "LOAD" (some 0) 1 0, mkIns "LOAD" (some 1) 2 10]

/-- C10: calling `extract_command` with cursor 0 on a non-empty sequence does
not fail: the index becomes −1, Python indexing reads the LAST instruction
(offset 10, not the first at offset 0), and the call returns a command for it
with cursor −1. -/
theorem negative_index_reads_last :
    pyGet insTwoLoads (0 - 1) = some (mkIns "LOAD" (some 1) 2 10) ∧
    (extract_command 10 regDemo insTwoLoads 0).map (fun r => (r.1, r.2.offset))
      = .ok (-1, 10) := ⟨rfl, rfl⟩

/-! ## C1: stack-balance closure fails on overshoot -/

def insOver : List Instruction := [mkIns "P2" none 0 0, mkIns "C1" none 0 2]

/-- C1 counterexample: a consume-1 root gathers a single child that produces
two slots and consumes none, so the balance jumps from 1 to −1: the loop
exits on a NEGATIVE balance, and the root's consume count (1) differs from
the children's net consumption sum (−2). -/
theorem stack_balance_overshoot_cex :
    (extract_command 10 regDemo insOver 2).map
        (fun r => ((r.2.operation.consume_count : Int), r.2.arguments.map netConsume,
          balAfter (r.2.operation.consume_count : Int) r.2.arguments))
      = .ok (1, [-2], -1) ∧ ((1 : Int) ≠ -2 ∧ ¬ ((-1 : Int) = 0)) := ⟨rfl, by decide⟩

theorem balAfter_reverse (s : Int) (l : List Command) :
    balAfter s l.reverse = balAfter s l := by
  simp [balAfter, List.map_reverse, List.sum_reverse]

/-- C1 (amended): for every command returned through the non-block branch,
the gathering loop halts the FIRST time the running balance reaches zero or
below: before each gathered child the balance is strictly positive, and after
the final child it is at most zero.  (Equality with zero — the claim's exact
closure — holds only when no child overshoots; a child may net more than one
produced slot and drive the balance negative.) -/
theorem stack_balance_amended (fuel : Nat) (reg : Registry) (instrs : List Instruction)
    (i i' : Int) (cmd : Command)
    (hok : extract_command fuel reg instrs i = .ok (i', cmd))
    (hsb : cmd.operation.start_block = false)
    (heb : cmd.operation.end_block = false) :
    balAfter (cmd.operation.consume_count : Int) cmd.arguments ≤ 0 ∧
      ∀ k, k < cmd.arguments.length →
        0 < balAfter (cmd.operation.consume_count : Int) (cmd.arguments.reverse.take k) := by
  match fuel with
  | 0 => simp [extract_command] at hok
  | f + 1 =>
    simp only [extract_command] at hok
    rcases hg : pyGet instrs (i - 1) with _ | instruction
    · simp [hg] at hok
    simp only [hg] at hok
    rcases hr : reg instruction.opname with _ | s
    · simp [hr] at hok
    simp only [hr] at hok
    revert hok
    generalize (if instruction.arg = none then mkOpcode instruction.opname s none
      else mkOpcode instruction.opname s
        (some (mergeExt instrs (i - 1) instruction.argval).2)) = o
    generalize (mergeExt instrs (i - 1) instruction.argval).1 = w
    intro hok
    split at hok
    · rename_i hcond
      rcases hb : gatherBlock f reg instrs w [] with e | ⟨j, args⟩
      · simp [hb] at hok
      simp only [hb, Except.ok.injEq, Prod.mk.injEq] at hok
      obtain ⟨h1, h2⟩ := hok
      subst h2
      simp only [Command.operation] at heb
      rw [hcond] at heb
      simp at heb
    split at hok
    · rename_i hcond
      simp only [Except.ok.injEq, Prod.mk.injEq] at hok
      obtain ⟨h1, h2⟩ := hok
      subst h2
      simp only [Command.operation] at hsb
      rw [hcond] at hsb
      simp at hsb
    · rcases hs : gatherStack f reg instrs w (o.consume_count : Int) [] with e | ⟨j, args⟩
      · simp [hs] at hok
      simp only [hs, Except.ok.injEq, Prod.mk.injEq] at hok
      obtain ⟨h1, h2⟩ := hok
      subst h2
      obtain ⟨new, hnew, hbal, hpre⟩ := gatherStack_balance f reg instrs w _ [] j args hs
      simp only [List.nil_append] at hnew
      subst hnew
      constructor
      · simpa [Command.operation, Command.arguments, balAfter_reverse] using hbal
      · intro k hk
        simp only [Command.arguments, List.length_reverse] at hk
        have := hpre k hk
        simpa [Command.operation, Command.arguments, List.reverse_reverse] using this

def addCmd : Command :=
  Command.mk (mkOpcode "ADD" consumeTwoSpec none) 6 none false
    [Command.mk (mkOpcode "LOAD" loadSpec (some 1)) 0 none false [],
     Command.mk (mkOpcode "LOAD" loadSpec (some 2)) 3 none false []]

/-- Witness for the amended C1 at a concrete input: the binary-add command
over two constant loads halts with balance exactly 2 − 1 − 1 = 0 ≤ 0. -/
theorem stack_balance_amended_witness :
    balAfter ((addCmd.operation.consume_count : Int)) addCmd.arguments ≤ 0 :=
  (stack_balance_amended 10 regDemo insExpr 3 0 addCmd rfl rfl rfl).1

/-! ## C6: order preservation of argument offsets -/

def insWrapOrder : List Instruction := [mkIns "C1" none 0 0, mkIns "LOAD" (some 0) 1 10]

/-- C6 counterexample: on a sequence whose offsets strictly increase
(`[0, 10]`), the call from cursor 1 wraps below the start of the sequence and
returns a command at offset 0 whose single argument has offset 10 — which is
NOT below the command's own offset. -/
theorem order_preservation_cex :
    (insWrapOrder.map fun ins => ins.offset) = [0, 10] ∧
    (extract_command 10 regDemo insWrapOrder 1).map
        (fun r => (r.1, r.2.offset, r.2.arguments.map fun a => a.offset))
      = .ok (-1, 0, [10]) ∧ ¬ (10 < 0) := ⟨rfl, rfl, by decide⟩

/-- C6 (amended): when the instruction offsets are strictly increasing and
the run never wraps below the start of the sequence (the returned cursor is
nonnegative), the offsets of a returned command's arguments, read left to
right, strictly increase and all lie strictly below the command's own
offset. -/
theorem order_preservation_amended (fuel : Nat) (reg : Registry)
    (instrs : List Instruction) (i i' : Int) (cmd : Command)
    (hmono : OffsetMono instrs)
    (hok : extract_command fuel reg instrs i = .ok (i', cmd))
    (hnn : 0 ≤ i') :
    List.Chain' (fun x y => x < y) (cmd.arguments.map fun a => a.offset) ∧
      ∀ a ∈ cmd.arguments, a.offset < cmd.offset := by
  obtain ⟨_, hchain, hmem⟩ := (offsets_all reg instrs hmono fuel).1 i i' cmd hok hnn
  refine ⟨?_, hmem⟩
  rw [List.chain'_map]
  exact hchain

/-- Witness for the amended C6 at a concrete input: the binary-add command's
argument offsets `[0, 3]` strictly increase. -/
theorem order_preservation_amended_witness :
    List.Chain' (fun x y => x < y) (addCmd.arguments.map fun a => a.offset) :=
  (order_preservation_amended 10 regDemo insExpr 3 0 addCmd
    (by unfold OffsetMono; decide) rfl (by norm_num)).1

end Voc

namespace Voc

/-! ## Small unfolding lemmas for concrete branch computations -/

theorem mkOpcode_start (n : String) (s : OpSpec) (argument : Option Nat) :
    (mkOpcode n s argument).start_block = s.start_block := rfl

theorem mkOpcode_end (n : String) (s : OpSpec) (argument : Option Nat) :
    (mkOpcode n s argument).end_block = s.end_block := rfl

theorem mkOpcode_consume (n : String) (s : OpSpec) (argument : Option Nat) :
    (mkOpcode n s argument).consume_count = s.consume argument := rfl

theorem mkOpcode_argument (n : String) (s : OpSpec) (argument : Option Nat) :
    (mkOpcode n s argument).argument = argument := rfl

theorem gatherStack_zero (f : Nat) (reg : Registry) (instrs : List Instruction)
    (i : Int) (acc : List Command) :
    gatherStack (f + 1) reg instrs i 0 acc = .ok (i, acc) := by
  simp [gatherStack]

theorem gatherBlock_succ (f : Nat) (reg : Registry) (instrs : List Instruction)
    (i : Int) (acc : List Command) :
    gatherBlock (f + 1) reg instrs i acc
      = match extract_command f reg instrs i with
        | .error e => .error e
        | .ok (i, arg) =>
          if arg.operation.start_block then .ok (i, acc)
          else gatherBlock f reg instrs i (acc ++ [arg]) := rfl

theorem opcode_if_effArg (n : String) (s : OpSpec) (ins : Instruction) (v : Nat)
    (hv : v = ins.argval) :
    (if ins.arg = none then mkOpcode n s none else mkOpcode n s (some v))
      = mkOpcode n s (effArg ins) := by
  subst hv
  rcases h : ins.arg with _ | x <;> simp [effArg, h]

/-! ## C3: extended-argument merging uses plain OR, with no shift -/

def insExt : List Instruction :=
  [mkIns "EXTENDED_ARG" (some 1) 1 0, mkIns "LOAD" (some 44) 44 2]

/-- C3 counterexample: a high-bits instruction with value 1 followed by a
load instruction with raw value 44 merges to argument `44 ||| 1 = 45`, not to
`(1 <<< 8) ||| 44 = 300`: the code applies a plain bitwise OR with no shift. -/
theorem extended_arg_shift_cex :
    (extract_command 10 regDemo insExt 2).map
        (fun r => (r.1, r.2.operation.argument))
      = .ok (0, some 45) ∧ some 45 ≠ some ((1 <<< 8) ||| 44) := ⟨rfl, by decide⟩

/-- C3 (amended): an instruction carrying a raw argument and immediately
preceded by an `EXTENDED_ARG` instruction yields a single command whose
resolved argument is the plain bitwise OR of its own value with the preceding
instruction's value (no shift applied), and the returned cursor lies at or
before the `EXTENDED_ARG` instruction, which produces no separate command. -/
theorem extended_arg_merge_amended (fuel : Nat) (reg : Registry)
    (instrs : List Instruction) (i i' : Int) (cmd : Command)
    (instr prev : Instruction) (a0 : Nat)
    (hgt : 1 < i)
    (hins : pyGet instrs (i - 1) = some instr)
    (hprev : pyGet instrs (i - 2) = some prev)
    (hE : prev.opname = "EXTENDED_ARG")
    (harg : instr.arg = some a0)
    (hok : extract_command fuel reg instrs i = .ok (i', cmd)) :
    cmd.operation.argument = some (instr.argval ||| prev.argval) ∧ i' ≤ i - 2 := by
  match fuel with
  | 0 => simp [extract_command] at hok
  | f + 1 =>
    have h2 : i - 1 - 1 = i - 2 := by ring
    have hmerge : mergeExt instrs (i - 1) instr.argval
        = (i - 2, instr.argval ||| prev.argval) := by
      unfold mergeExt
      rw [h2, if_pos (show (0 : Int) < i - 1 by omega)]
      simp only [hprev]
      rw [if_pos hE]
    simp only [extract_command, hins] at hok
    rcases hr : reg instr.opname with _ | s
    · simp [hr] at hok
    simp only [hr, hmerge, harg] at hok
    rw [if_neg (show ¬ (some a0 = none) by simp)] at hok
    split at hok
    · rcases hb : gatherBlock f reg instrs (i - 2) [] with e | ⟨j, args⟩
      · simp [hb] at hok
      simp only [hb, Except.ok.injEq, Prod.mk.injEq] at hok
      obtain ⟨h1, h3⟩ := hok
      subst h3
      have := gatherBlock_le f reg instrs hb
      exact ⟨by simp [Command.operation, mkOpcode_argument], by omega⟩
    split at hok
    · simp only [Except.ok.injEq, Prod.mk.injEq] at hok
      obtain ⟨h1, h3⟩ := hok
      subst h3
      exact ⟨by simp [Command.operation, mkOpcode_argument], by omega⟩
    · rcases hs : gatherStack f reg instrs (i - 2)
          ((mkOpcode instr.opname s (some (instr.argval ||| prev.argval))).consume_count : Int)
          [] with e | ⟨j, args⟩
      · simp [hs] at hok
      simp only [hs, Except.ok.injEq, Prod.mk.injEq] at hok
      obtain ⟨h1, h3⟩ := hok
      subst h3
      have := gatherStack_le f reg instrs hs
      exact ⟨by simp [Command.operation, mkOpcode_argument], by omega⟩

def extCmd : Command := Command.mk (mkOpcode "LOAD" loadSpec (some 45)) 2 none false []

/-- Witness for the amended C3 at a concrete input: the 1-then-44 example
merges to argument 45 and consumes both instructions (cursor 0). -/
theorem extended_arg_merge_amended_witness :
    extCmd.operation.argument = some (44 ||| 1) ∧ (0 : Int) ≤ 2 - 2 :=
  extended_arg_merge_amended 10 regDemo insExt 2 0 extCmd
    (mkIns "LOAD" (some 44) 44 2) (mkIns "EXTENDED_ARG" (some 1) 1 0) 44
    (by norm_num) rfl rfl rfl rfl rfl

/-! ## C8: merging is checked one position back only -/

def insExt2 : List Instruction :=
  [mkIns "EXTENDED_ARG" (some 7) 7 0, mkIns "EXTENDED_ARG" (some 1) 1 2,
   mkIns "LOAD" (some 44) 44 4]

/-- C8: with the instruction under the cursor a zero-consumption non-block
operation preceded by TWO consecutive `EXTENDED_ARG` instructions, only the
immediately adjacent one is merged: the resolved argument is the OR with the
adjacent value only, the merged instruction contributes no command of its own,
and the returned cursor is exactly `i - 2` — just past the merged instruction
and before the farther `EXTENDED_ARG`, which stays unconsumed. -/
theorem extended_arg_single_level (m : Nat) (reg : Registry)
    (instrs : List Instruction) (i : Int)
    (instr prev prev2 : Instruction) (s : OpSpec) (a0 : Nat)
    (hgt : 1 < i)
    (hins : pyGet instrs (i - 1) = some instr)
    (hprev : pyGet instrs (i - 2) = some prev)
    (hprev2 : pyGet instrs (i - 3) = some prev2)
    (hE : prev.opname = "EXTENDED_ARG")
    (hE2 : prev2.opname = "EXTENDED_ARG")
    (hreg : reg instr.opname = some s)
    (harg : instr.arg = some a0)
    (hsb : s.start_block = false) (heb : s.end_block = false)
    (hcons : s.consume (some (instr.argval ||| prev.argval)) = 0) :
    extract_command (m + 2) reg instrs i
      = .ok (i - 2,
          Command.mk (mkOpcode instr.opname s (some (instr.argval ||| prev.argval)))
            instr.offset instr.starts_line instr.is_jump_target []) := by
  have h2 : i - 1 - 1 = i - 2 := by ring
  have hmerge : mergeExt instrs (i - 1) instr.argval
      = (i - 2, instr.argval ||| prev.argval) := by
    unfold mergeExt
    rw [h2, if_pos (show (0 : Int) < i - 1 by omega)]
    simp only [hprev]
    rw [if_pos hE]
  rw [show m + 2 = (m + 1) + 1 by omega]
  simp only [extract_command, hins, hreg, hmerge]
  rw [if_neg (show ¬ (instr.arg = none) by simp [harg])]
  simp only [mkOpcode_end, heb, mkOpcode_start, hsb, Bool.false_eq_true, if_false,
    mkOpcode_consume, hcons, Nat.cast_zero, gatherStack_zero, List.reverse_nil]

/-- Witness for C8 at a concrete input: two stacked `EXTENDED_ARG`
instructions before a load; only the adjacent one merges (argument 45, the
farther value 7 plays no part) and the cursor stops before the farther one. -/
theorem extended_arg_single_level_witness :
    extract_command 10 regDemo insExt2 3
      = .ok (1, Command.mk (mkOpcode "LOAD" loadSpec (some 45)) 4 none false []) :=
  extended_arg_single_level 8 regDemo insExt2 3
    (mkIns "LOAD" (some 44) 44 4) (mkIns "EXTENDED_ARG" (some 1) 1 2)
    (mkIns "EXTENDED_ARG" (some 7) 7 0) loadSpec 44
    (by norm_num) rfl rfl rfl rfl rfl rfl rfl rfl rfl rfl

end Voc

namespace Voc

/-! ## C2: block absorption -/

/-- C2: for an instruction run `[open-block, A, B, close-block]` where A and B
are zero-consumption, non-block leaf operations (and none of the first three
opcode names is the extended-argument marker), extraction from the cursor one
past the closer returns a single command for the closer whose arguments are
exactly the commands for A and B in forward order; the opener's command is
discarded from the argument list while its consumption is reflected in the
returned cursor `0`. -/
theorem block_absorption (m : Nat) (reg : Registry) (o a b c : Instruction)
    (os sa sb sc : OpSpec)
    (hro : reg o.opname = some os) (hra : reg a.opname = some sa)
    (hrb : reg b.opname = some sb) (hrc : reg c.opname = some sc)
    (hoE : o.opname ≠ "EXTENDED_ARG") (haE : a.opname ≠ "EXTENDED_ARG")
    (hbE : b.opname ≠ "EXTENDED_ARG")
    (hosS : os.start_block = true) (hosE : os.end_block = false)
    (hsaS : sa.start_block = false) (hsaE : sa.end_block = false)
    (hsaC : sa.consume (effArg a) = 0)
    (hsbS : sb.start_block = false) (hsbE : sb.end_block = false)
    (hsbC : sb.consume (effArg b) = 0)
    (hscE : sc.end_block = true) :
    extract_command (m + 16) reg [o, a, b, c] 4
      = .ok (0, Command.mk (mkOpcode c.opname sc (effArg c)) c.offset c.starts_line
          c.is_jump_target
          [Command.mk (mkOpcode a.opname sa (effArg a)) a.offset a.starts_line
            a.is_jump_target [],
           Command.mk (mkOpcode b.opname sb (effArg b)) b.offset b.starts_line
            b.is_jump_target []]) := by
  have hA : ∀ n : Nat, extract_command (n + 2) reg [o, a, b, c] 2
      = .ok (1, Command.mk (mkOpcode a.opname sa (effArg a)) a.offset a.starts_line
          a.is_jump_target []) := by
    intro n
    have hpg : pyGet [o, a, b, c] (2 - 1) = some a := rfl
    have hm : mergeExt [o, a, b, c] (2 - 1) a.argval = (1, a.argval) := by
      unfold mergeExt
      rw [if_pos (show (0 : Int) < 2 - 1 by norm_num)]
      have hpg0 : pyGet [o, a, b, c] (2 - 1 - 1) = some o := rfl
      simp only [hpg0]
      rw [if_neg hoE]
      norm_num [Prod.mk.injEq]
    rw [show n + 2 = (n + 1) + 1 by omega]
    simp only [extract_command, hpg, hra, hm]
    rw [opcode_if_effArg a.opname sa a a.argval rfl]
    simp only [mkOpcode_end, hsaE, mkOpcode_start, hsaS, Bool.false_eq_true, if_false,
      mkOpcode_consume, hsaC, Nat.cast_zero, gatherStack_zero, List.reverse_nil]
  have hB3 : ∀ n : Nat, extract_command (n + 2) reg [o, a, b, c] 3
      = .ok (2, Command.mk (mkOpcode b.opname sb (effArg b)) b.offset b.starts_line
          b.is_jump_target []) := by
    intro n
    have hpg : pyGet [o, a, b, c] (3 - 1) = some b := rfl
    have hm : mergeExt [o, a, b, c] (3 - 1) b.argval = (2, b.argval) := by
      unfold mergeExt
      rw [if_pos (show (0 : Int) < 3 - 1 by norm_num)]
      have hpg0 : pyGet [o, a, b, c] (3 - 1 - 1) = some a := rfl
      simp only [hpg0]
      rw [if_neg haE]
      norm_num [Prod.mk.injEq]
    rw [show n + 2 = (n + 1) + 1 by omega]
    simp only [extract_command, hpg, hrb, hm]
    rw [opcode_if_effArg b.opname sb b b.argval rfl]
    simp only [mkOpcode_end, hsbE, mkOpcode_start, hsbS, Bool.false_eq_true, if_false,
      mkOpcode_consume, hsbC, Nat.cast_zero, gatherStack_zero, List.reverse_nil]
  have hO : ∀ n : Nat, extract_command (n + 1) reg [o, a, b, c] 1
      = .ok (0, Command.mk (mkOpcode o.opname os (effArg o)) o.offset o.starts_line
          o.is_jump_target []) := by
    intro n
    have hpg : pyGet [o, a, b, c] (1 - 1) = some o := rfl
    have hm : mergeExt [o, a, b, c] (1 - 1) o.argval = (0, o.argval) := by
      unfold mergeExt
      rw [if_neg (show ¬ (0 : Int) < 1 - 1 by norm_num)]
      norm_num [Prod.mk.injEq]
    simp only [extract_command, hpg, hro, hm]
    rw [opcode_if_effArg o.opname os o o.argval rfl]
    simp only [mkOpcode_end, hosE, Bool.false_eq_true, if_false, mkOpcode_start, hosS,
      eq_self_iff_true, if_true]
  have hGB : gatherBlock (m + 15) reg [o, a, b, c] 3 []
      = .ok (0, [Command.mk (mkOpcode b.opname sb (effArg b)) b.offset b.starts_line
          b.is_jump_target [],
        Command.mk (mkOpcode a.opname sa (effArg a)) a.offset a.starts_line
          a.is_jump_target []]) := by
    rw [show m + 15 = (m + 14) + 1 by omega, gatherBlock_succ,
        show m + 14 = m + 12 + 2 by omega, hB3 (m + 12)]
    simp only [Command.operation, mkOpcode_start, hsbS, Bool.false_eq_true, if_false]
    rw [show m + 14 = (m + 13) + 1 by omega, gatherBlock_succ,
        show m + 13 = m + 11 + 2 by omega, hA (m + 11)]
    simp only [Command.operation, mkOpcode_start, hsaS, Bool.false_eq_true, if_false]
    rw [show m + 13 = (m + 12) + 1 by omega, gatherBlock_succ,
        show m + 12 = m + 11 + 1 by omega, hO (m + 11)]
    simp only [Command.operation, mkOpcode_start, hosS, eq_self_iff_true, if_true]
    simp
  have hpg4 : pyGet [o, a, b, c] (4 - 1) = some c := rfl
  have hm4 : mergeExt [o, a, b, c] (4 - 1) c.argval = (3, c.argval) := by
    unfold mergeExt
    rw [if_pos (show (0 : Int) < 4 - 1 by norm_num)]
    have hpg2 : pyGet [o, a, b, c] (4 - 1 - 1) = some b := rfl
    simp only [hpg2]
    rw [if_neg hbE]
    norm_num [Prod.mk.injEq]
  rw [show m + 16 = (m + 15) + 1 by omega]
  simp only [extract_command, hpg4, hrc, hm4]
  rw [opcode_if_effArg c.opname sc c c.argval rfl]
  simp only [mkOpcode_end, hscE, eq_self_iff_true, if_true, hGB]
  rfl

def insBlock : List Instruction :=
  [mkIns "OPEN" none 0 0, mkIns "LOAD" (some 0) 1 2, mkIns "LOAD" (some 1) 2 4,
   mkIns "CLOSE" none 0 6]

/-- Witness for C2 at a concrete input: `[OPEN, LOAD, LOAD, CLOSE]` yields a
single command for `CLOSE` with the two loads as arguments in forward order
and the cursor consumed down to 0. -/
theorem block_absorption_witness :
    extract_command 16 regDemo insBlock 4
      = .ok (0, Command.mk (mkOpcode "CLOSE" closeSpec none) 6 none false
          [Command.mk (mkOpcode "LOAD" loadSpec (some 1)) 2 none false [],
           Command.mk (mkOpcode "LOAD" loadSpec (some 2)) 4 none false []]) :=
  block_absorption 0 regDemo (mkIns "OPEN" none 0 0) (mkIns "LOAD" (some 0) 1 2)
    (mkIns "LOAD" (some 1) 2 4) (mkIns "CLOSE" none 0 6)
    openSpec loadSpec loadSpec closeSpec
    rfl rfl rfl rfl (by decide) (by decide) (by decide)
    rfl rfl rfl rfl rfl rfl rfl rfl rfl

end Voc
